import Mathlib

/-!
Verification of the `rate` package (Go): a bandwidth limiter (`limit.go`)
and a throughput monitor (`monitor.go`), shallowly embedded in Lean.

Conventions of the embedding:
* Go machine integers are modeled as `Nat`/`Int`; where Go wraps (int64
  multiplication in `newLimit`) the wrap is written explicitly via `i64`.
* Go's truncating integer division is `Int.tdiv`.
* `time.Time` / `time.Duration` are modeled as `Int` nanoseconds; the zero
  value of `time.Time` is `0`, and the current instant is threaded through
  explicitly.  `time.Sleep d` advances the clock by `max d 0` (a negative or
  zero duration returns immediately).
* The underlying stream (`either` in `limit.go`) is a function
  `op : Nat → Nat × Option Err` from the offered buffer length to the number
  of bytes transferred plus the returned error; buffer contents are
  irrelevant to all the properties proved here.
* Each call of the limiter produces a trace of `Event`s (sleeps, quantum
  refills, underlying `io` invocations) so that temporal/side-effect claims
  can be stated.
-/

/-- Errors of the embedded code: `io.EOF` or an opaque underlying error. -/
inductive Err
  | eof
  | custom (code : Nat)
deriving DecidableEq, Repr

/-- Observable events of one `(*limit).io` call: a requested sleep duration
(in ns, possibly non-positive, in which case `time.Sleep` is a no-op), the
start of a new quantum (`l.left = l.bpq`), and an invocation of the
underlying operation with `offered` bytes of which `n` were transferred. -/
inductive Event
  | sleep (d : Int)
  | refill
  | call (offered : Nat) (n : Nat)
deriving DecidableEq, Repr

/-- Reinterpret/wrap an integer to Go's two's-complement `int64` range. -/
def i64 (x : Int) : Int := (x + 2 ^ 63) % 2 ^ 64 - 2 ^ 63

/-- `int(time.Second)`: nanoseconds per second. -/
def nsPerSecond : Int := 1000000000

/-- `time.Duration(math.MaxInt16)` from limit.go line 79: 32767 nanoseconds. -/
def mathMaxInt16 : Int := 32767

/-- The `limit` struct of limit.go (lines 35-45).  The `either` value `e` is
modeled by the flag `hasE` (whether `e != nil`) plus the operation `op`
passed separately to `ioAux`; `bps` is a `uint64` (a `Nat` here), and
`quantum`, `bpq`, `t0`, `left` are the int64 / duration / instant fields. -/
structure limit where
  hasE : Bool
  writer : Bool
  bps : Nat
  quantum : Int
  bpq : Int
  t0 : Int
  left : Int
deriving DecidableEq, Repr

/-- `newLimit` (limit.go lines 47-68).  For `bps == 0` only `e` and `bps` are
set (so `writer` is `false` and `quantum`, `bpq`, `t0`, `left` are zero
values).  Otherwise `bpq = (int(bps) * int(quantum)) / int(time.Second)` in
wrapping int64 arithmetic, and if that is zero, `bpq` is forced to `1` and
`quantum` recomputed as `time.Second / time.Duration(bps)`. -/
def newLimit (hasE writer : Bool) (bps : Nat) (quantum : Int) : limit :=
  if bps = 0 then
    { hasE := hasE, writer := false, bps := 0, quantum := 0, bpq := 0, t0 := 0, left := 0 }
  else
    let bpq0 : Int := Int.tdiv (i64 (i64 bps * i64 quantum)) nsPerSecond
    if bpq0 = 0 then
      { hasE := hasE, writer := writer, bps := bps, quantum := Int.tdiv nsPerSecond (i64 bps),
        bpq := 1, t0 := 0, left := 0 }
    else
      { hasE := hasE, writer := writer, bps := bps, quantum := i64 quantum,
        bpq := bpq0, t0 := 0, left := 0 }

/-- Lines 82-93 of limit.go: if no bytes are left in this quantum, sleep
until `t0` (a no-op if `t0` is in the past, in particular on the first call
where `t0` is the zero value), then start a new quantum.  Returns the updated
state, the clock after the sleep, and the trace of this step. -/
def limit.refillIfNeeded (s : limit) (now : Int) : limit × Int × List Event :=
  if s.left = 0 then
    let d := s.t0 - now
    let now2 := now + max d 0
    ({ s with t0 := now2 + s.quantum, left := s.bpq }, now2, [Event.sleep d, Event.refill])
  else (s, now, [])

/-- Result of one underlying-transfer attempt or of a whole `io` call. -/
structure XferResult where
  n : Nat
  err : Option Err
  s : limit
  now : Int
  tr : List Event
deriving DecidableEq, Repr

/-- One pass through lines 78-101 of `(*limit).io` (everything except the
zero-length / nil-stream early returns and the write-splitting recursion):
the `bps == 0` sleep of `time.Duration(math.MaxInt16)`, the quantum refill,
clipping the buffer to `l.left`, the underlying call, and `l.left -= n`.
The extra `buflen` field records `len(buf)`, which the recursion needs. -/
structure AttemptResult where
  n : Nat
  err : Option Err
  s : limit
  now : Int
  tr : List Event
  buflen : Nat
deriving DecidableEq, Repr

def limit.attempt (op : Nat → Nat × Option Err) (s : limit) (now : Int)
    (plen : Nat) : AttemptResult :=
  let now1 : Int := if s.bps = 0 then now + mathMaxInt16 else now
  let tr1 : List Event := if s.bps = 0 then [Event.sleep mathMaxInt16] else []
  let step := limit.refillIfNeeded s now1
  let s2 := step.1
  let buflen : Nat := if s2.left < (plen : Int) then s2.left.toNat else plen
  let r := op buflen
  ⟨r.1, r.2, { s2 with left := s2.left - (r.1 : Int) }, step.2.1,
    tr1 ++ step.2.2 ++ [Event.call buflen r.1], buflen⟩

/-- `(*limit).io` (limit.go lines 70-108), with explicit fuel bounding the
depth of the write-splitting recursion (line 104 recurses on
`p[len(buf):]`).  `none` models the computations that do not terminate
normally in Go (possible only from states with `bpq ≤ 0`, where the Go code
either panics on `p[:l.left]` or recurses forever); for every state arising
from `newLimit` with `bpq ≥ 1`, fuel `plen` suffices, because each recursive
sub-write strictly shrinks the not-yet-submitted suffix. -/
def limit.ioAux (op : Nat → Nat × Option Err) :
    Nat → limit → Int → Nat → Option XferResult
  | fuel, s, now, plen =>
    if s.hasE = false then some ⟨0, some Err.eof, s, now, []⟩
    else if plen = 0 then some ⟨0, none, s, now, []⟩
    else
      let a := limit.attempt op s now plen
      if a.s.writer = true ∧ a.err = none then
        match fuel with
        | 0 => none
        | fuel' + 1 =>
          match limit.ioAux op fuel' a.s a.now (plen - a.buflen) with
          | none => none
          | some res => some ⟨a.n + res.n, res.err, res.s, res.now, a.tr ++ res.tr⟩
      else some ⟨a.n, a.err, a.s, a.now, a.tr⟩

/-- A single call to `(*limit).io` on a buffer of length `plen`. -/
def limit.ioOnce (op : Nat → Nat × Option Err) (s : limit) (now : Int)
    (plen : Nat) : Option XferResult :=
  limit.ioAux op plen s now plen

/-- A sequence of `(*limit).io` calls on one limiter (buffer lengths `ps`),
with the traces concatenated. -/
def limit.ioSeq (op : Nat → Nat × Option Err) :
    List Nat → limit → Int → Option (limit × Int × List Event)
  | [], s, now => some (s, now, [])
  | plen :: ps, s, now =>
    match limit.ioOnce op s now plen with
    | none => none
    | some res =>
      match limit.ioSeq op ps res.s res.now with
      | none => none
      | some (s2, now2, tr2) => some (s2, now2, res.tr ++ tr2)

/-- Well-formedness of a limiter state in rate-limiting mode: the remaining
budget lies between `0` and `bpq`, and the per-quantum budget is at least one
byte (as `newLimit` guarantees whenever no int64 overflow occurred). -/
abbrev wf (s : limit) : Prop := 0 ≤ s.left ∧ s.left ≤ s.bpq ∧ 1 ≤ s.bpq

/-- The io.Reader/io.Writer contract: the underlying operation never reports
more bytes transferred than it was offered. -/
abbrev opOK (op : Nat → Nat × Option Err) : Prop := ∀ k, (op k).1 ≤ k

/-- Bytes already transferred in the current quantum window after a trace,
starting from `acc` transferred when the trace begins. -/
def accAfter : Int → List Event → Int
  | acc, [] => acc
  | acc, Event.sleep _ :: tr => accAfter acc tr
  | _, Event.refill :: tr => accAfter 0 tr
  | acc, Event.call _ n :: tr => accAfter (acc + n) tr

/-- Every quantum window of the trace transfers at most `bpq` bytes: a
running per-window total (reset by each refill, starting from `acc`) never
exceeds `bpq`. -/
def windowsBounded (bpq : Int) : Int → List Event → Prop
  | _, [] => True
  | acc, Event.sleep _ :: tr => windowsBounded bpq acc tr
  | _, Event.refill :: tr => windowsBounded bpq 0 tr
  | acc, Event.call _ n :: tr => acc + n ≤ bpq ∧ windowsBounded bpq (acc + n) tr

/-- Number of underlying-operation invocations in a trace. -/
def countCalls : List Event → Nat
  | [] => 0
  | Event.call _ _ :: tr => countCalls tr + 1
  | _ :: tr => countCalls tr

/-! ## Monitor (monitor.go) -/

/-- `U64`: modulus of Go's `uint64` arithmetic. -/
def U64 : Nat := 2 ^ 64

/-- The counting state of a `Monitor` (monitor.go lines 33-39): cumulative
total `n`, pending counter `nn` (both `uint64`), and the instant `t0` of the
previous sample.  The callback / channel and the `exit` channel are modeled
separately (`monitorStep` below). -/
structure Monitor where
  n : Nat
  nn : Nat
  t0 : Int
deriving DecidableEq, Repr

/-- `(*Monitor).Add` (monitor.go lines 106-108): an atomic uint64 add. -/
def Monitor.Add (m : Monitor) (k : Nat) : Monitor :=
  { m with nn := (m.nn + k) % U64 }

/-- The `Rate` value delivered each period (monitor.go lines 21-24); the
`float64` rate is modeled as an exact rational. -/
structure Sample where
  total : Nat
  rate : Rat
deriving DecidableEq, Repr

/-- One sampling iteration of `(*Monitor).monitor` (monitor.go lines 93-101):
capture `t1`, compute the elapsed duration, drain the pending counter with an
atomic swap, fold it into the total, and emit `Rate{m.n, float64(nn)/delta.Seconds()}`. -/
def Monitor.sampleStep (m : Monitor) (t1 : Int) : Monitor × Sample :=
  let delta : Int := t1 - m.t0
  let nn := m.nn
  let n2 := (m.n + nn) % U64
  ({ n := n2, nn := 0, t0 := t1 }, ⟨n2, (nn : Rat) / ((delta : Rat) / (1000000000 : Rat))⟩)

/-- Capacity of the buffered `exit` channel (monitor.go line 62). -/
def exitChanCap : Nat := 1

/-- `(*Monitor).Close` (monitor.go lines 114-123): a select with a default
branch on the buffered `exit` channel, modeled on the number of values
queued in the channel; the send succeeds only if there is room, so `Close`
never blocks. -/
def Monitor.CloseStep (c : Nat) : Nat :=
  if c < exitChanCap then c + 1 else c

/-- Program counter of the `(*Monitor).monitor` loop (lines 68-104):
`loopTop` is the select at the top of the loop, `postSleep` the second
cancellation check right after `time.Sleep(m.period)`, and `deliver` the
sampling-and-delivery block (lines 93-101). -/
inductive MPC
  | loopTop
  | postSleep
  | deliver
deriving DecidableEq, Repr

/-- One step of the monitor loop as a transition on (program counter,
queued exit values); the third component counts samples delivered by the
step, and a `none` next-counter means the goroutine returned. -/
def monitorStep : MPC → Nat → Option MPC × Nat × Nat
  | MPC.loopTop, c => if 1 ≤ c then (none, c - 1, 0) else (some MPC.postSleep, c, 0)
  | MPC.postSleep, c => if 1 ≤ c then (none, c - 1, 0) else (some MPC.deliver, c, 0)
  | MPC.deliver, c => (some MPC.loopTop, c, 1)

/-- Run the monitor loop for at most `fuel` steps with no further external
interference, returning the total number of samples delivered if the
goroutine returns within the fuel. -/
def monitorRun : Nat → MPC → Nat → Option Nat
  | 0, _, _ => none
  | fuel + 1, pc, c =>
    match monitorStep pc c with
    | (none, _, d) => some d
    | (some pc2, c2, d) => Option.map (fun x => d + x) (monitorRun fuel pc2 c2)

/-! ## MonitorReader (monitor.go lines 130-165) -/

/-- The `MonitorReader` decorator (monitor.go lines 130-134).  The underlying
`io.Reader` is modeled as an optional script of `(n, err)` responses, one per
`Read` call (`none` models a nil reader); `err` is the decorator's error
field, and `mnn` is the pending counter of the attached `Monitor`, which
`Read` feeds through `m.m.Add(uint64(n))`. -/
structure MonitorReader where
  r : Option (List (Nat × Option Err))
  err : Option Err
  mnn : Nat
deriving DecidableEq, Repr

/-- Result of one `(*MonitorReader).Read` call: the returned `(n, err)`, the
updated decorator state, and whether the underlying `Read` was invoked. -/
structure ReadResult where
  n : Nat
  err : Option Err
  st : MonitorReader
  invoked : Bool
deriving DecidableEq, Repr

/-- `(*MonitorReader).Read` (monitor.go lines 152-165): return the stored
error if there is one, return `io.EOF` if the reader is nil, otherwise
invoke the underlying `Read` and feed the transferred count to the monitor.
Exactly as in the source, the `err` field is never assigned.  An exhausted
response script keeps answering `(0, io.EOF)`.  `(*MonitorWriter).Write`
(lines 213-226) is structurally identical. -/
def MonitorReader.Read (m : MonitorReader) : ReadResult :=
  match m.err with
  | some e => ⟨0, some e, m, false⟩
  | none =>
    match m.r with
    | none => ⟨0, some Err.eof, m, false⟩
    | some script =>
      let resp := script.headD (0, some Err.eof)
      ⟨resp.1, resp.2,
        { m with r := some script.tail, mnn := (m.mnn + resp.1) % U64 }, true⟩

/-! ## Trace accounting lemmas -/

theorem accAfter_append (t1 t2 : List Event) :
    ∀ acc, accAfter acc (t1 ++ t2) = accAfter (accAfter acc t1) t2 := by
  induction t1 with
  | nil => intro acc; rfl
  | cons e t ih => intro acc; cases e <;> simp [accAfter, ih]

theorem windowsBounded_append (bpq : Int) (t1 t2 : List Event) :
    ∀ acc, windowsBounded bpq acc (t1 ++ t2) ↔
      windowsBounded bpq acc t1 ∧ windowsBounded bpq (accAfter acc t1) t2 := by
  induction t1 with
  | nil => intro acc; simp [windowsBounded, accAfter]
  | cons e t ih => intro acc; cases e <;> (simp [windowsBounded, accAfter, ih]; try tauto)

theorem countCalls_append (t1 t2 : List Event) :
    countCalls (t1 ++ t2) = countCalls t1 + countCalls t2 := by
  induction t1 with
  | nil => simp [countCalls]
  | cons e t ih => cases e <;> (simp [countCalls, ih]; try omega)

/-- The optional leading sleep of a trace (the `bps == 0` sleep) is invisible
to all three trace-accounting functions. -/
theorem sleepPrefix_accAfter (c : Prop) [Decidable c] (d acc : Int) :
    accAfter acc (if c then [Event.sleep d] else []) = acc := by
  split <;> rfl

theorem sleepPrefix_windows (c : Prop) [Decidable c] (d bpq acc : Int) :
    windowsBounded bpq acc (if c then [Event.sleep d] else []) := by
  split <;> trivial

theorem sleepPrefix_countCalls (c : Prop) [Decidable c] (d : Int) :
    countCalls (if c then [Event.sleep d] else []) = 0 := by
  split <;> rfl

/-! ## One transfer attempt -/

/-- Characterization of `refillIfNeeded`: only `t0` and `left` change, `left`
becomes `bpq` exactly when it was `0`, and the trace contains no underlying
call, resets the per-window total on a refill, and is always window-safe. -/
theorem refill_cases (s : limit) (now1 : Int) :
    ∃ (t0' now2 : Int) (trr : List Event),
      limit.refillIfNeeded s now1 =
        ({ s with t0 := t0', left := if s.left = 0 then s.bpq else s.left }, now2, trr) ∧
      (∀ acc : Int, accAfter acc trr = if s.left = 0 then 0 else acc) ∧
      (∀ bpq acc : Int, windowsBounded bpq acc trr) ∧
      countCalls trr = 0 := by
  by_cases hL : s.left = 0
  · refine ⟨now1 + max (s.t0 - now1) 0 + s.quantum, now1 + max (s.t0 - now1) 0,
      [Event.sleep (s.t0 - now1), Event.refill], ?_, ?_, ?_, ?_⟩
    · simp [limit.refillIfNeeded, hL]
    · intro acc; simp [accAfter, hL]
    · intro bpq acc; trivial
    · rfl
  · refine ⟨s.t0, now1, [], ?_, ?_, ?_, ?_⟩
    · simp [limit.refillIfNeeded, hL]
    · intro acc; simp [accAfter, hL]
    · intro bpq acc; trivial
    · rfl

theorem attempt_spec (op : Nat → Nat × Option Err) (hop : opOK op) (s : limit)
    (now : Int) (plen : Nat) (hwf : wf s) :
    (limit.attempt op s now plen).s.writer = s.writer ∧
    (limit.attempt op s now plen).s.hasE = s.hasE ∧
    (limit.attempt op s now plen).s.bps = s.bps ∧
    (limit.attempt op s now plen).s.bpq = s.bpq ∧
    wf (limit.attempt op s now plen).s ∧
    (limit.attempt op s now plen).buflen ≤ plen ∧
    (1 ≤ plen → 1 ≤ (limit.attempt op s now plen).buflen) ∧
    (limit.attempt op s now plen).n ≤ (limit.attempt op s now plen).buflen ∧
    (limit.attempt op s now plen).n = (op (limit.attempt op s now plen).buflen).1 ∧
    (limit.attempt op s now plen).err = (op (limit.attempt op s now plen).buflen).2 ∧
    ((limit.attempt op s now plen).buflen : Int) ≤ s.bpq ∧
    countCalls (limit.attempt op s now plen).tr = 1 ∧
    ∀ acc : Int, 0 ≤ acc → acc + s.left ≤ s.bpq →
      windowsBounded s.bpq acc (limit.attempt op s now plen).tr ∧
      0 ≤ accAfter acc (limit.attempt op s now plen).tr ∧
      accAfter acc (limit.attempt op s now plen).tr +
        (limit.attempt op s now plen).s.left ≤ s.bpq := by
  obtain ⟨h1, h2, h3⟩ := hwf
  obtain ⟨t0', now2, trr, hre, haccr, hwinr, hccr⟩ :=
    refill_cases s (if s.bps = 0 then now + mathMaxInt16 else now)
  have hl2a : (1 : Int) ≤ (if s.left = 0 then s.bpq else s.left) := by split <;> omega
  have hl2b : (if s.left = 0 then s.bpq else s.left) ≤ s.bpq := by split <;> omega
  set l2 : Int := if s.left = 0 then s.bpq else s.left with hl2
  have key : limit.attempt op s now plen =
      AttemptResult.mk (op (if l2 < (plen : Int) then l2.toNat else plen)).1
        (op (if l2 < (plen : Int) then l2.toNat else plen)).2
        (limit.mk s.hasE s.writer s.bps s.quantum s.bpq t0'
          (l2 - ((op (if l2 < (plen : Int) then l2.toNat else plen)).1 : Int)))
        now2
        ((if s.bps = 0 then [Event.sleep mathMaxInt16] else []) ++ trr ++
          [Event.call (if l2 < (plen : Int) then l2.toNat else plen)
            (op (if l2 < (plen : Int) then l2.toNat else plen)).1])
        (if l2 < (plen : Int) then l2.toNat else plen) := by
    simp only [limit.attempt, hre]
  rw [key]
  have hn := hop (if l2 < (plen : Int) then l2.toNat else plen)
  have hbl1 : (((if l2 < (plen : Int) then l2.toNat else plen) : Nat) : Int) ≤ l2 := by
    rcases lt_or_ge l2 (plen : Int) with h | h
    · rw [if_pos h]; omega
    · rw [if_neg (not_lt.mpr h)]; omega
  have hbl2 : (if l2 < (plen : Int) then l2.toNat else plen) ≤ plen := by
    split <;> omega
  have hbl3 : 1 ≤ plen → 1 ≤ (if l2 < (plen : Int) then l2.toNat else plen) := by
    intro hp; split <;> omega
  refine ⟨rfl, rfl, rfl, rfl, ⟨by simp; omega, by simp; omega, h3⟩,
    hbl2, hbl3, hn, rfl, rfl, by simp; omega, ?_, ?_⟩
  · rw [countCalls_append, countCalls_append, sleepPrefix_countCalls, hccr]; rfl
  · intro acc ha hacc
    have hacc2 : accAfter acc
        ((if s.bps = 0 then [Event.sleep mathMaxInt16] else []) ++ trr) =
        if s.left = 0 then 0 else acc := by
      rw [accAfter_append, sleepPrefix_accAfter, haccr]
    have hseg : (if s.left = 0 then (0 : Int) else acc) + l2 ≤ s.bpq := by
      rw [hl2]; split <;> omega
    have hpos : 0 ≤ (if s.left = 0 then (0 : Int) else acc) := by split <;> omega
    refine ⟨?_, ?_, ?_⟩
    · rw [List.append_assoc, windowsBounded_append]
      refine ⟨sleepPrefix_windows _ _ _ _, ?_⟩
      rw [windowsBounded_append]
      refine ⟨hwinr _ _, ?_⟩
      rw [sleepPrefix_accAfter, haccr]
      exact ⟨by omega, trivial⟩
    · rw [accAfter_append, hacc2]
      simp only [accAfter]
      omega
    · rw [accAfter_append, hacc2]
      simp only [accAfter]
      omega

/-! ## The io call -/

theorem ioAux_eq (op : Nat → Nat × Option Err) (fuel : Nat) (s : limit)
    (now : Int) (plen : Nat) (hE : s.hasE = true) (hp : plen ≠ 0) :
    limit.ioAux op fuel s now plen =
      (if (limit.attempt op s now plen).s.writer = true ∧
          (limit.attempt op s now plen).err = none then
        match fuel with
        | 0 => none
        | fuel' + 1 =>
          match limit.ioAux op fuel' (limit.attempt op s now plen).s
              (limit.attempt op s now plen).now
              (plen - (limit.attempt op s now plen).buflen) with
          | none => none
          | some res => some ⟨(limit.attempt op s now plen).n + res.n, res.err,
              res.s, res.now, (limit.attempt op s now plen).tr ++ res.tr⟩
      else some ⟨(limit.attempt op s now plen).n, (limit.attempt op s now plen).err,
        (limit.attempt op s now plen).s, (limit.attempt op s now plen).now,
        (limit.attempt op s now plen).tr⟩) := by
  rw [limit.ioAux]
  simp [hE, hp]

/-- Main specification of `(*limit).io` from a well-formed state: the call
terminates within fuel `plen`, preserves the configuration fields and the
budget invariant `0 ≤ left ≤ bpq`, and its trace never exceeds `bpq`
transferred bytes in any quantum window (threading the per-window total
`acc` through the call). -/
theorem ioAux_spec (op : Nat → Nat × Option Err) (hop : opOK op) :
    ∀ (fuel plen : Nat) (s : limit) (now : Int), plen ≤ fuel → wf s →
      ∃ res : XferResult, limit.ioAux op fuel s now plen = some res ∧
        res.s.writer = s.writer ∧ res.s.hasE = s.hasE ∧ res.s.bps = s.bps ∧
        res.s.bpq = s.bpq ∧ wf res.s ∧
        ∀ acc : Int, 0 ≤ acc → acc + s.left ≤ s.bpq →
          windowsBounded s.bpq acc res.tr ∧ 0 ≤ accAfter acc res.tr ∧
          accAfter acc res.tr + res.s.left ≤ s.bpq := by
  intro fuel
  induction fuel with
  | zero =>
    intro plen s now hf hwf
    have hp : plen = 0 := Nat.le_zero.mp hf
    subst hp
    by_cases hE : s.hasE = false
    · refine ⟨⟨0, some Err.eof, s, now, []⟩, by rw [limit.ioAux]; simp [hE], rfl, rfl,
        rfl, rfl, hwf, ?_⟩
      intro acc ha hacc
      exact ⟨trivial, by simpa [accAfter] using ha, by simpa [accAfter] using hacc⟩
    · refine ⟨⟨0, none, s, now, []⟩, by rw [limit.ioAux]; simp [hE], rfl, rfl,
        rfl, rfl, hwf, ?_⟩
      intro acc ha hacc
      exact ⟨trivial, by simpa [accAfter] using ha, by simpa [accAfter] using hacc⟩
  | succ fuel ih =>
    intro plen s now hf hwf
    by_cases hE : s.hasE = false
    · refine ⟨⟨0, some Err.eof, s, now, []⟩, by rw [limit.ioAux]; simp [hE], rfl, rfl,
        rfl, rfl, hwf, ?_⟩
      intro acc ha hacc
      exact ⟨trivial, by simpa [accAfter] using ha, by simpa [accAfter] using hacc⟩
    · by_cases hp : plen = 0
      · subst hp
        refine ⟨⟨0, none, s, now, []⟩, by rw [limit.ioAux]; simp [hE], rfl, rfl,
          rfl, rfl, hwf, ?_⟩
        intro acc ha hacc
        exact ⟨trivial, by simpa [accAfter] using ha, by simpa [accAfter] using hacc⟩
      · have hE' : s.hasE = true := by
          cases h : s.hasE
          · exact absurd h hE
          · rfl
        obtain ⟨f1, f2, f3, f4, hwa, hbl2, hbl3, hnb, heqn, heqe, hbq, hcc, hwin⟩ :=
          attempt_spec op hop s now plen hwf
        have heq := ioAux_eq op (fuel + 1) s now plen hE' hp
        by_cases hw : (limit.attempt op s now plen).s.writer = true ∧
            (limit.attempt op s now plen).err = none
        · have hbl1 : 1 ≤ (limit.attempt op s now plen).buflen := hbl3 (by omega)
          obtain ⟨res, hres, g1, g2, g3, g4, gwf, gwin⟩ :=
            ih (plen - (limit.attempt op s now plen).buflen)
              (limit.attempt op s now plen).s (limit.attempt op s now plen).now
              (by omega) hwa
          refine ⟨⟨(limit.attempt op s now plen).n + res.n, res.err, res.s, res.now,
            (limit.attempt op s now plen).tr ++ res.tr⟩, ?_, ?_, ?_, ?_, ?_, gwf, ?_⟩
          · rw [heq, if_pos hw]
            simp only [hres]
          · rw [g1, f1]
          · rw [g2, f2]
          · rw [g3, f3]
          · rw [g4, f4]
          · intro acc ha hacc
            obtain ⟨w1, w2, w3⟩ := hwin acc ha hacc
            obtain ⟨u1, u2, u3⟩ := gwin (accAfter acc (limit.attempt op s now plen).tr)
              w2 (by rw [f4]; exact w3)
            refine ⟨?_, ?_, ?_⟩
            · rw [windowsBounded_append]
              exact ⟨w1, by rw [← f4]; exact u1⟩
            · rw [accAfter_append]
              exact u2
            · rw [accAfter_append]
              rw [f4] at u3
              exact u3
        · refine ⟨⟨(limit.attempt op s now plen).n, (limit.attempt op s now plen).err,
            (limit.attempt op s now plen).s, (limit.attempt op s now plen).now,
            (limit.attempt op s now plen).tr⟩, ?_, f1, f2, f3, f4, hwa, hwin⟩
          rw [heq, if_neg hw]

/-- Specification of a sequence of `io` calls: the window accounting of
`ioAux_spec` chains across arbitrarily many calls on the same limiter. -/
theorem ioSeq_spec (op : Nat → Nat × Option Err) (hop : opOK op) :
    ∀ (ps : List Nat) (s : limit) (now : Int) (acc : Int), wf s →
      0 ≤ acc → acc + s.left ≤ s.bpq →
      ∃ (s2 : limit) (now2 : Int) (tr : List Event),
        limit.ioSeq op ps s now = some (s2, now2, tr) ∧
        s2.bpq = s.bpq ∧ wf s2 ∧ windowsBounded s.bpq acc tr ∧
        0 ≤ accAfter acc tr ∧ accAfter acc tr + s2.left ≤ s.bpq := by
  intro ps
  induction ps with
  | nil =>
    intro s now acc hwf ha hacc
    exact ⟨s, now, [], rfl, rfl, hwf, trivial, by simpa [accAfter] using ha,
      by simpa [accAfter] using hacc⟩
  | cons p ps ih =>
    intro s now acc hwf ha hacc
    obtain ⟨res, hres, g1, g2, g3, g4, gwf, gwin⟩ :=
      ioAux_spec op hop p p s now le_rfl hwf
    obtain ⟨w1, w2, w3⟩ := gwin acc ha hacc
    obtain ⟨s2, now2, tr2, hseq, e1, e2, e3, e4, e5⟩ :=
      ih res.s res.now (accAfter acc res.tr) gwf w2 (by rw [g4]; exact w3)
    rw [g4] at e3 e5
    refine ⟨s2, now2, res.tr ++ tr2, ?_, by rw [e1, g4], e2, ?_, ?_, ?_⟩
    · simp only [limit.ioSeq, limit.ioOnce, hres, hseq]
    · rw [windowsBounded_append]
      exact ⟨w1, e3⟩
    · rw [accAfter_append]
      exact e4
    · rw [accAfter_append]
      exact e5

/-- When the underlying writer always transfers the whole offered slice with
no error, a write call transfers exactly the requested length. -/
theorem ioAux_writeAll (op : Nat → Nat × Option Err)
    (hfull : ∀ k, op k = (k, none)) :
    ∀ (fuel plen : Nat) (s : limit) (now : Int), plen ≤ fuel → s.hasE = true →
      s.writer = true → wf s →
      ∃ res : XferResult, limit.ioAux op fuel s now plen = some res ∧
        res.n = plen ∧ res.err = none ∧ res.s.hasE = true ∧
        res.s.writer = true ∧ res.s.bpq = s.bpq ∧ wf res.s := by
  have hop : opOK op := fun k => by rw [hfull k]
  intro fuel
  induction fuel with
  | zero =>
    intro plen s now hf hE hw hwf
    have hp : plen = 0 := Nat.le_zero.mp hf
    subst hp
    exact ⟨⟨0, none, s, now, []⟩, by rw [limit.ioAux]; simp [hE], rfl, rfl, hE, hw,
      rfl, hwf⟩
  | succ fuel ih =>
    intro plen s now hf hE hw hwf
    by_cases hp : plen = 0
    · subst hp
      exact ⟨⟨0, none, s, now, []⟩, by rw [limit.ioAux]; simp [hE], rfl, rfl, hE, hw,
        rfl, hwf⟩
    · obtain ⟨f1, f2, f3, f4, hwa, hbl2, hbl3, hnb, heqn, heqe, hbq, hcc, hwin⟩ :=
        attempt_spec op hop s now plen hwf
      have hbl1 : 1 ≤ (limit.attempt op s now plen).buflen := hbl3 (by omega)
      have hfn : (limit.attempt op s now plen).n =
          (limit.attempt op s now plen).buflen := by
        rw [heqn, hfull]
      have hfe : (limit.attempt op s now plen).err = none := by
        rw [heqe, hfull]
      have hw2 : (limit.attempt op s now plen).s.writer = true := by rw [f1]; exact hw
      have hE2 : (limit.attempt op s now plen).s.hasE = true := by rw [f2]; exact hE
      have heq := ioAux_eq op (fuel + 1) s now plen hE hp
      obtain ⟨res, hres, e1, e2, e3, e4, e5, ewf⟩ :=
        ih (plen - (limit.attempt op s now plen).buflen) (limit.attempt op s now plen).s
          (limit.attempt op s now plen).now (by omega) hE2 hw2 hwa
      refine ⟨⟨(limit.attempt op s now plen).n + res.n, res.err, res.s, res.now,
        (limit.attempt op s now plen).tr ++ res.tr⟩, ?_, ?_, e2, e3, e4,
        by rw [e5, f4], ewf⟩
      · rw [heq, if_pos ⟨hw2, hfe⟩]
        simp only [hres]
      · simp only [hfn, e1]
        omega

/-! ## Construction arithmetic -/

theorem i64_eq_self {x : Int} (h0 : 0 ≤ x) (h1 : x < 2 ^ 63) : i64 x = x := by
  unfold i64
  rw [Int.emod_eq_of_lt (by omega) (by omega)]
  omega

/-- In the overflow-free range, `newLimit` is the limiter the construction
contract describes: budget `(bps * quantum) / 1e9` (truncated division), with
the zero-budget case forced to one byte per `1e9 / bps` nanoseconds. -/
theorem newLimit_nooverflow (he w : Bool) (bps : Nat) (q : Int)
    (h1 : 1 ≤ bps) (h2 : 1 ≤ q) (h3 : (bps : Int) * q < 2 ^ 63) :
    newLimit he w bps q =
      (if Int.tdiv ((bps : Int) * q) nsPerSecond = 0 then
        limit.mk he w bps (Int.tdiv nsPerSecond (bps : Int)) 1 0 0
      else
        limit.mk he w bps q (Int.tdiv ((bps : Int) * q) nsPerSecond) 0 0) := by
  have hb1 : (1 : Int) ≤ (bps : Int) := by exact_mod_cast h1
  have hbb : (bps : Int) < 2 ^ 63 :=
    lt_of_le_of_lt (le_mul_of_one_le_right (by omega) h2) h3
  have hqq : q < 2 ^ 63 := lt_of_le_of_lt (le_mul_of_one_le_left (by omega) hb1) h3
  have e1 : i64 (bps : Int) = (bps : Int) := i64_eq_self (by omega) hbb
  have e2 : i64 q = q := i64_eq_self (by omega) hqq
  have e3 : i64 ((bps : Int) * q) = (bps : Int) * q :=
    i64_eq_self (mul_nonneg (by omega) (by omega)) h3
  unfold newLimit
  rw [if_neg (by omega : ¬bps = 0)]
  simp only [e1, e2, e3]

/-! ## Monitor counting -/

theorem foldl_Add_spec (ks : List Nat) : ∀ m : Monitor, m.nn < U64 →
    (ks.foldl Monitor.Add m).nn = (m.nn + ks.sum) % U64 ∧
    (ks.foldl Monitor.Add m).n = m.n ∧
    (ks.foldl Monitor.Add m).t0 = m.t0 := by
  induction ks with
  | nil =>
    intro m h
    exact ⟨by simp [Nat.mod_eq_of_lt h], rfl, rfl⟩
  | cons k ks ih =>
    intro m h
    have h2 : (Monitor.Add m k).nn < U64 := by
      simp only [Monitor.Add]
      exact Nat.mod_lt _ (by norm_num [U64])
    obtain ⟨e1, e2, e3⟩ := ih (Monitor.Add m k) h2
    refine ⟨?_, ?_, ?_⟩
    · rw [List.foldl_cons, e1]
      simp only [Monitor.Add]
      rw [Nat.mod_add_mod, List.sum_cons, Nat.add_assoc]
    · rw [List.foldl_cons, e2]; rfl
    · rw [List.foldl_cons, e3]; rfl

/-! ## Claims -/

/-- C1: the claim says a limiter constructed with `bytesPerSecond == 0` never
returns from `io` on a non-empty buffer.  The code instead sleeps
`time.Duration(math.MaxInt16)` = 32767 nanoseconds (limit.go line 79) and
then falls through: here the call on a 1-byte buffer from a `bps = 0`
limiter provably returns `(0, nil)` at clock `1000 + 32767`, after invoking
the underlying operation on an empty slice — contradicting the claim and the
package documentation ("any call to Read with len(p) > 0 will sleep
forever"); the intended constant was evidently `math.MaxInt64`. -/
theorem c1_zero_bps_call_returns :
    limit.ioOnce (fun _ => (0, none)) (newLimit true true 0 100000000) 1000 1 =
      some ⟨0, none, limit.mk true false 0 0 0 33767 0, 33767,
        [Event.sleep mathMaxInt16, Event.sleep (-33767), Event.refill,
          Event.call 0 0]⟩ := by
  decide

/-- C2: the claim says that once the underlying operation of a
`MonitorReader`/`MonitorWriter` has failed, every later call returns that
same error without re-invoking the underlying operation.  The code checks
`m.err` but never assigns it (monitor.go lines 152-165, 213-226), so after an
underlying reader first returns `(0, errX)`, the second `Read` re-invokes the
underlying reader (`invoked = true`) and returns its fresh result `(5, nil)`
instead of `errX` — contradicting the claim and the documentation of
`(*MonitorReader).Close` ("will return io.EOF or any error previously
encountered"). -/
theorem c2_error_not_sticky :
    (MonitorReader.mk (some [(0, some (Err.custom 7)), (5, none)]) none 0).Read.err
        = some (Err.custom 7) ∧
    ((MonitorReader.mk (some [(0, some (Err.custom 7)), (5, none)]) none 0).Read.st).Read.invoked
        = true ∧
    ((MonitorReader.mk (some [(0, some (Err.custom 7)), (5, none)]) none 0).Read.st).Read.err
        = none ∧
    ((MonitorReader.mk (some [(0, some (Err.custom 7)), (5, none)]) none 0).Read.st).Read.n
        = 5 := by
  decide

/-- C3: for a write-direction limiter in rate-limiting mode (`bps ≠ 0`, well
formed) whose underlying writer transfers every offered slice without error,
one `Write` call of any length returns exactly the full requested length and
no error, the request being split across as many quanta as needed. -/
theorem c3_write_full_length (op : Nat → Nat × Option Err)
    (hfull : ∀ k, op k = (k, none)) (s : limit) (now : Int) (plen : Nat)
    (hE : s.hasE = true) (hw : s.writer = true) (_hb : s.bps ≠ 0) (hwf : wf s) :
    ∃ res : XferResult, limit.ioOnce op s now plen = some res ∧
      res.n = plen ∧ res.err = none := by
  obtain ⟨res, h, e1, e2, _⟩ := ioAux_writeAll op hfull plen plen s now le_rfl hE hw hwf
  exact ⟨res, h, e1, e2⟩

theorem c3_write_full_length_witness :
    (newLimit true true 10 1000000000).hasE = true ∧
    (newLimit true true 10 1000000000).writer = true ∧
    wf (newLimit true true 10 1000000000) ∧
    ∃ res : XferResult,
      limit.ioOnce (fun k => (k, none)) (newLimit true true 10 1000000000) 0 25 =
        some res ∧ res.n = 25 ∧ res.err = none :=
  ⟨by decide, by decide, ⟨by decide, by decide, by decide⟩,
    c3_write_full_length (fun k => (k, none)) (fun k => rfl) _ 0 25 (by decide)
      (by decide) (by decide) ⟨by decide, by decide, by decide⟩⟩

/-- C4 counterexample: the claim asserts `bytesPerQuantum` is computed by
exact integer arithmetic with no overflow or sign wrap, i.e. it always equals
`floor(bytesPerSecond * quantum / 1e9)`.  At `bps = 10^12`, `quantum = 10^8`
(100ms) the product `10^20` wraps in int64, and the code stores
`7766279631`, not the exact `100000000000`. -/
theorem c4_bpq_overflow_counterexample :
    (newLimit true true 1000000000000 100000000).bpq = 7766279631 ∧
    Int.tdiv ((1000000000000 : Int) * 100000000) nsPerSecond = 100000000000 ∧
    (7766279631 : Int) ≠ 100000000000 := by
  decide

/-- C4 amended: whenever `bps * quantum` stays below `2^63` (no int64
overflow), construction computes `bpq = (bps * quantum) / 1e9` (truncated
division, which is `floor` on these non-negative values) and keeps the given
quantum; and whenever that computed value is zero, it instead forces
`bpq = 1` and `quantum = 1e9 / bps`. -/
theorem c4_bpq_construction_amended (he w : Bool) (bps : Nat) (q : Int)
    (h1 : 1 ≤ bps) (h2 : 1 ≤ q) (h3 : (bps : Int) * q < 2 ^ 63) :
    (Int.tdiv ((bps : Int) * q) nsPerSecond = 0 →
      (newLimit he w bps q).bpq = 1 ∧
      (newLimit he w bps q).quantum = Int.tdiv nsPerSecond (bps : Int)) ∧
    (Int.tdiv ((bps : Int) * q) nsPerSecond ≠ 0 →
      (newLimit he w bps q).bpq = Int.tdiv ((bps : Int) * q) nsPerSecond ∧
      (newLimit he w bps q).quantum = q) := by
  rw [newLimit_nooverflow he w bps q h1 h2 h3]
  constructor
  · intro h
    rw [if_pos h]
    exact ⟨rfl, rfl⟩
  · intro h
    rw [if_neg h]
    exact ⟨rfl, rfl⟩

theorem c4_bpq_construction_witness :
    (newLimit true true 5 100000000).bpq = 1 ∧
    (newLimit true true 5 100000000).quantum = 200000000 :=
  ((c4_bpq_construction_amended true true 5 100000000 (by decide) (by decide)
    (by decide)).1 (by decide))

/-- C5: a read-direction limiter (`writer = false`) in rate-limiting mode
invokes the underlying read exactly once per `io` call on a non-empty buffer
(never auto-retried), and returns at most `min(requested, bpq)` bytes. -/
theorem c5_read_single_attempt (op : Nat → Nat × Option Err) (hop : opOK op)
    (s : limit) (now : Int) (plen : Nat) (hw : s.writer = false)
    (hE : s.hasE = true) (_hb : s.bps ≠ 0) (hwf : wf s) (hp : 1 ≤ plen) :
    ∃ res : XferResult, limit.ioOnce op s now plen = some res ∧
      countCalls res.tr = 1 ∧ res.n ≤ plen ∧ (res.n : Int) ≤ s.bpq := by
  obtain ⟨f1, f2, f3, f4, hwa, hbl2, hbl3, hnb, heqn, heqe, hbq, hcc, hwin⟩ :=
    attempt_spec op hop s now plen hwf
  have hp0 : plen ≠ 0 := by omega
  have heq := ioAux_eq op plen s now plen hE hp0
  have hwn : ¬((limit.attempt op s now plen).s.writer = true ∧
      (limit.attempt op s now plen).err = none) := by
    rw [f1, hw]
    simp
  refine ⟨⟨(limit.attempt op s now plen).n, (limit.attempt op s now plen).err,
    (limit.attempt op s now plen).s, (limit.attempt op s now plen).now,
    (limit.attempt op s now plen).tr⟩, ?_, hcc, ?_, ?_⟩
  · rw [limit.ioOnce, heq, if_neg hwn]
  · show (limit.attempt op s now plen).n ≤ plen
    omega
  · show ((limit.attempt op s now plen).n : Int) ≤ s.bpq
    omega

theorem c5_read_single_attempt_witness :
    (newLimit true false 10 1000000000).writer = false ∧
    wf (newLimit true false 10 1000000000) ∧
    ∃ res : XferResult,
      limit.ioOnce (fun k => (k, none)) (newLimit true false 10 1000000000) 0 25 =
        some res ∧ countCalls res.tr = 1 ∧ res.n ≤ 25 ∧
        (res.n : Int) ≤ (newLimit true false 10 1000000000).bpq :=
  ⟨by decide, ⟨by decide, by decide, by decide⟩,
    c5_read_single_attempt (fun k => (k, none)) (fun k => le_rfl) _ 0 25 (by decide)
      (by decide) (by decide) ⟨by decide, by decide, by decide⟩ (by decide)⟩

/-- C6: from any well-formed limiter state and any underlying operation
obeying the io contract, every sequence of `io` calls terminates with the
budget invariant `0 ≤ left ≤ bpq` preserved, and the running per-window
total of transferred bytes (seeded with the `bpq - left` bytes already spent
in the current window, reset by each quantum refill) never exceeds `bpq`:
no quantum window ever carries more than `bpq` transferred bytes, across
arbitrarily many calls. -/
theorem c6_window_invariant (op : Nat → Nat × Option Err) (hop : opOK op)
    (ps : List Nat) (s : limit) (now : Int) (hwf : wf s) :
    ∃ (s2 : limit) (now2 : Int) (tr : List Event),
      limit.ioSeq op ps s now = some (s2, now2, tr) ∧ wf s2 ∧
      windowsBounded s.bpq (s.bpq - s.left) tr := by
  obtain ⟨h1, h2, h3⟩ := hwf
  obtain ⟨s2, now2, tr, h, e1, e2, e3, e4, e5⟩ :=
    ioSeq_spec op hop ps s now (s.bpq - s.left) ⟨h1, h2, h3⟩ (by omega) (by omega)
  exact ⟨s2, now2, tr, h, e2, e3⟩

theorem c6_window_invariant_witness :
    wf (newLimit true true 10 1000000000) ∧
    ∃ (s2 : limit) (now2 : Int) (tr : List Event),
      limit.ioSeq (fun k => (k, none)) [25, 7] (newLimit true true 10 1000000000) 0 =
        some (s2, now2, tr) ∧ wf s2 ∧
      windowsBounded (newLimit true true 10 1000000000).bpq
        ((newLimit true true 10 1000000000).bpq -
          (newLimit true true 10 1000000000).left) tr :=
  ⟨⟨by decide, by decide, by decide⟩,
    c6_window_invariant (fun k => (k, none)) (fun k => le_rfl) [25, 7] _ 0
      ⟨by decide, by decide, by decide⟩⟩

/-- C7: one sampling iteration drains the pending counter to zero with an
atomic swap, folds the drained amount into the cumulative total, and emits
that total together with `rate = drained / elapsedSeconds`; so if `Add`
calls summing to `S` (without uint64 overflow) arrive within one period,
the next sample's total is exactly the old total plus `S` and the pending
counter is zero immediately after the sample. -/
theorem c7_sample_accounting (m : Monitor) (ks : List Nat) (t1 : Int)
    (h0 : m.nn = 0) (hS : m.n + ks.sum < U64) :
    ((ks.foldl Monitor.Add m).sampleStep t1).2.total = m.n + ks.sum ∧
    ((ks.foldl Monitor.Add m).sampleStep t1).1.n = m.n + ks.sum ∧
    ((ks.foldl Monitor.Add m).sampleStep t1).1.nn = 0 ∧
    ((ks.foldl Monitor.Add m).sampleStep t1).1.t0 = t1 ∧
    ((ks.foldl Monitor.Add m).sampleStep t1).2.rate =
      (ks.sum : Rat) / (((t1 - m.t0 : Int) : Rat) / (1000000000 : Rat)) := by
  obtain ⟨e1, e2, e3⟩ := foldl_Add_spec ks m (by rw [h0]; norm_num [U64])
  have hsum : ks.sum < U64 := by omega
  have hnn : (ks.foldl Monitor.Add m).nn = ks.sum := by
    rw [e1, h0, Nat.zero_add, Nat.mod_eq_of_lt hsum]
  simp [Monitor.sampleStep, hnn, e2, e3, Nat.mod_eq_of_lt hS]

theorem c7_sample_accounting_witness :
    (100 : Nat) + ([3, 4] : List Nat).sum < U64 ∧
    ((([3, 4] : List Nat).foldl Monitor.Add (Monitor.mk 100 0 0)).sampleStep
        2000000000).2.total = 100 + ([3, 4] : List Nat).sum :=
  ⟨by decide, (c7_sample_accounting (Monitor.mk 100 0 0) [3, 4] 2000000000 rfl
    (by decide)).1⟩

/-- C8: a transfer call with a zero-length buffer on a limiter with a
non-nil underlying stream returns `(0, nil)` immediately: same state, same
clock (no sleep), empty trace (no underlying invocation), at any rate. -/
theorem c8_zero_length_noop (op : Nat → Nat × Option Err) (s : limit)
    (now : Int) (hE : s.hasE = true) :
    limit.ioOnce op s now 0 = some ⟨0, none, s, now, []⟩ := by
  rw [limit.ioOnce, limit.ioAux]
  simp [hE]

theorem c8_zero_length_noop_witness :
    (newLimit true false 8 100000000).hasE = true ∧
    limit.ioOnce (fun k => (k, none)) (newLimit true false 8 100000000) 5 0 =
      some ⟨0, none, newLimit true false 8 100000000, 5, []⟩ :=
  ⟨by decide, c8_zero_length_noop (fun k => (k, none)) _ 5 (by decide)⟩

/-- C9: `Close` on the buffered `exit` channel is idempotent and never
blocks; after a `Close` the channel holds a value, so the loop exits at its
next cancellation check (both the top-of-loop and the post-sleep checks
return immediately with no further delivery), and from any point of the
loop at most one additional sample is delivered. -/
theorem c9_close_idempotent_bounded (c : Nat) (pc : MPC) :
    Monitor.CloseStep (Monitor.CloseStep c) = Monitor.CloseStep c ∧
    1 ≤ Monitor.CloseStep c ∧
    monitorRun 3 MPC.loopTop (Monitor.CloseStep c) = some 0 ∧
    monitorRun 3 MPC.postSleep (Monitor.CloseStep c) = some 0 ∧
    ∃ d, monitorRun 3 pc (Monitor.CloseStep c) = some d ∧ d ≤ 1 := by
  have h1 : 1 ≤ Monitor.CloseStep c := by
    unfold Monitor.CloseStep exitChanCap
    split <;> omega
  have hid : Monitor.CloseStep (Monitor.CloseStep c) = Monitor.CloseStep c := by
    unfold Monitor.CloseStep exitChanCap
    split_ifs <;> omega
  have hTop : ∀ k, 1 ≤ k → monitorRun 3 MPC.loopTop k = some 0 := by
    intro k hk
    simp [monitorRun, monitorStep, hk]
  have hPS : ∀ k, 1 ≤ k → monitorRun 3 MPC.postSleep k = some 0 := by
    intro k hk
    simp [monitorRun, monitorStep, hk]
  have hD : ∀ k, 1 ≤ k → monitorRun 3 MPC.deliver k = some 1 := by
    intro k hk
    simp [monitorRun, monitorStep, hk]
  refine ⟨hid, h1, hTop _ h1, hPS _ h1, ?_⟩
  cases pc
  · exact ⟨0, hTop _ h1, by omega⟩
  · exact ⟨0, hPS _ h1, by omega⟩
  · exact ⟨1, hD _ h1, by omega⟩

/-- C10: the nil-stream check precedes the zero-length fast path: with no
underlying stream, `io` returns `(0, io.EOF)` for every requested length,
including zero — not the `(0, nil)` that zero-length requests otherwise
get. -/
theorem c10_nil_stream_precedence (op : Nat → Nat × Option Err) (s : limit)
    (now : Int) (plen : Nat) (hE : s.hasE = false) :
    limit.ioOnce op s now plen = some ⟨0, some Err.eof, s, now, []⟩ := by
  rw [limit.ioOnce, limit.ioAux]
  simp [hE]

theorem c10_nil_stream_precedence_witness :
    (newLimit false true 7 100000000).hasE = false ∧
    limit.ioOnce (fun k => (k, none)) (newLimit false true 7 100000000) 5 0 =
      some ⟨0, some Err.eof, newLimit false true 7 100000000, 5, []⟩ ∧
    some Err.eof ≠ (none : Option Err) :=
  ⟨by decide, c10_nil_stream_precedence (fun k => (k, none)) _ 5 0 (by decide),
    by decide⟩
